import Mathlib

/-
Verification of the episodic Matching-Network engine
(src/models/matching/matchingnet.py) against its specification.

The loss module (`MatchingNet.loss`) is embedded as pure functions over
`List`-shaped tensors with real entries; the training-loop orchestrator
(`run_matching`) is embedded as an explicit state machine over rational
metric values, driven by an oracle supplying the sampled per-step results.
-/

namespace MatchingNetSpec

/-! ## Episode data (the `sample` dict of `MatchingNet.loss`) -/

/-- One episode: `xs` = per-class support groups, `xq` = per-class query
groups, exactly as the `sample` dictionary consumed by `MatchingNet.loss`. -/
structure Sample (α : Type) where
  xs : List (List α)
  xq : List (List α)

/-- Lines 54-62 of `MatchingNet.loss`, everything executed before the encoder
call on line 63: the `assert len(xq) == n_class`, the `xs[0]` / `xq[0]`
accesses computing `n_support` / `n_query`, and the flattening of the episode.
Returns the Python exception where the Python code would raise. -/
def preEncoderCheck {α : Type} (s : Sample α) : Except String (Nat × Nat × Nat × List α) :=
  if s.xq.length = s.xs.length then
    match s.xs with
    | [] => Except.error "IndexError: list index out of range"
    | g :: _ =>
      match s.xq with
      | [] => Except.error "IndexError: list index out of range"
      | h :: _ => Except.ok (s.xs.length, g.length, h.length, s.xs.flatten ++ s.xq.flatten)
  else Except.error "AssertionError"

/-- `n_class = len(xs)` (line 57). -/
def n_classOf {α : Type} (s : Sample α) : Nat := s.xs.length

/-- `n_support = len(xs[0])` (line 59). -/
def n_supportOf {α : Type} (s : Sample α) : Nat := (s.xs.headD []).length

/-- `n_query = len(xq[0])` (line 60). -/
def n_queryOf {α : Type} (s : Sample α) : Nat := (s.xq.headD []).length

/-- Line 62: `x = [item for xs_ in xs for item in xs_] + [item for xq_ in xq for item in xq_]`:
all support items (class-major) followed by all query items. -/
def xFlat {α : Type} (s : Sample α) : List α := s.xs.flatten ++ s.xq.flatten

/-- Line 63: `z = self.encoder.forward(x)`.  The external encoder is a
pluggable embedding function applied once, batched, to the whole flattened
sequence; per the interface contract it returns one vector per item, in
order, which a single `List.map` captures. -/
def zAll {α : Type} (encode : α → List ℝ) (s : Sample α) : List (List ℝ) :=
  (xFlat s).map encode

/-- Line 64: `z_support = z[:n_class * n_support]`. -/
def z_support {α : Type} (encode : α → List ℝ) (s : Sample α) : List (List ℝ) :=
  (zAll encode s).take (n_classOf s * n_supportOf s)

/-- Line 65: `z_query = z[n_class * n_support:]`. -/
def z_query {α : Type} (encode : α → List ℝ) (s : Sample α) : List (List ℝ) :=
  (zAll encode s).drop (n_classOf s * n_supportOf s)

/-! ## Similarity metric (utils/math.py collaborators and lines 67-72) -/

/-- Dot product of two embedding vectors. -/
noncomputable def dot (x y : List ℝ) : ℝ := ((x.zip y).map (fun p => p.1 * p.2)).sum

/-- Modelled from the spec: `euclidean_dist` is imported from `utils/math.py`,
which is not part of the analysed sources; spec §4.1 describes it as the
pairwise Euclidean distance matrix between two sets of embedding vectors. -/
noncomputable def euclidean_dist (xs ys : List (List ℝ)) : List (List ℝ) :=
  xs.map (fun x => ys.map (fun y =>
    Real.sqrt (((x.zip y).map (fun p => (p.1 - p.2) ^ 2)).sum)))

/-- Modelled from the spec: `cosine_similarity` is imported from
`utils/math.py`, which is not part of the analysed sources; spec §4.1
describes it as the pairwise cosine similarity matrix. -/
noncomputable def cosine_similarity (xs ys : List (List ℝ)) : List (List ℝ) :=
  xs.map (fun x => ys.map (fun y =>
    dot x y / (Real.sqrt (dot x x) * Real.sqrt (dot y y))))

/-- The two values `self.metric` may take (asserted on line 34). -/
inductive Metric where
  | cosine
  | euclidean

/-- Lines 67-72: metric dispatch.  Euclidean mode negates the pairwise
distance; cosine mode scales the pairwise cosine similarity by 5. -/
noncomputable def similarities (metric : Metric) (zq zs : List (List ℝ)) : List (List ℝ) :=
  match metric with
  | Metric.euclidean => (euclidean_dist zq zs).map (fun row => row.map (fun v => -v))
  | Metric.cosine => (cosine_similarity zq zs).map (fun row => row.map (fun v => v * 5))

/-- The similarity matrix of the episode (`similarities` on lines 67-70). -/
noncomputable def simsOf {α : Type} (metric : Metric) (encode : α → List ℝ) (s : Sample α) :
    List (List ℝ) :=
  similarities metric (z_query encode s) (z_support encode s)

/-! ## Per-class aggregation and targets (lines 75-80) -/

/-- Line 75: `similarities[:, c*n_support:(c+1)*n_support].mean(1)` for one
row — the mean of the `n_support` columns belonging to class `c`. -/
noncomputable def classMean (row : List ℝ) (c n_support : Nat) : ℝ :=
  (((row.drop (c * n_support)).take n_support).sum) / (n_support : ℝ)

/-- Line 75: the `[N·Q, N]` matrix obtained by averaging, per class, the
columns of the similarity matrix belonging to that class's support items
(the `torch.cat(...).T` construction, expressed entrywise). -/
noncomputable def distances_from_query_to_classes
    (sims : List (List ℝ)) (n_class n_support : Nat) : List (List ℝ) :=
  sims.map (fun row => (List.range n_class).map (fun c => classMean row c n_support))

/-- The aggregated per-class similarity of the episode. -/
noncomputable def distsOf {α : Type} (metric : Metric) (encode : α → List ℝ) (s : Sample α) :
    List (List ℝ) :=
  distances_from_query_to_classes (simsOf metric encode s) (n_classOf s) (n_supportOf s)

/-- Entry accessor for a `List (List ℝ)` matrix (0 outside the matrix). -/
noncomputable def entry (m : List (List ℝ)) (r c : Nat) : ℝ := (m.getD r []).getD c 0

/-- In-place single-entry assignment `m[r, c] = v`, as a functional update. -/
noncomputable def setEntry (m : List (List ℝ)) (r c : Nat) (v : ℝ) : List (List ℝ) :=
  m.set r ((m.getD r []).set c v)

/-- Line 76: `torch.zeros_like(distances_from_query_to_classes)`. -/
noncomputable def zerosLike (m : List (List ℝ)) : List (List ℝ) :=
  m.map (fun row => row.map (fun _ => (0 : ℝ)))

/-- Lines 78-80: the double loop
`for ix_class, class_query_sentences in enumerate(xq): for ix_sentence, ... :
true_labels[ix_class * n_query + ix_sentence, ix_class] = 1`. -/
noncomputable def true_labels {α : Type} (xq : List (List α)) (n_query : Nat)
    (zeros : List (List ℝ)) : List (List ℝ) :=
  xq.enum.foldl
    (fun m p => p.2.enum.foldl
      (fun m2 q => setEntry m2 (p.1 * n_query + q.1) p.1 1) m)
    zeros

/-- The target label matrix of the episode (lines 76-80). -/
noncomputable def labelsOf {α : Type} (metric : Metric) (encode : α → List ℝ) (s : Sample α) :
    List (List ℝ) :=
  true_labels s.xq (n_queryOf s) (zerosLike (distsOf metric encode s))

/-! ## Loss, accuracy, predictions (lines 82-90) -/

/-- `torch.argmax` along a row: index of the first maximal element. -/
noncomputable def argmaxAux (best : ℝ) (bestIdx i : Nat) : List ℝ → Nat
  | [] => bestIdx
  | a :: rest => if best < a then argmaxAux a i (i + 1) rest else argmaxAux best bestIdx (i + 1) rest

/-- `row.argmax()`: first index attaining the maximum (0 on the empty row). -/
noncomputable def argmaxRow : List ℝ → Nat
  | [] => 0
  | a :: rest => argmaxAux a 0 1 rest

/-- Line 84: `(true_labels.argmax(1) == distances.argmax(1)).float().mean()`,
the fraction of query rows whose predicted class index matches the target. -/
noncomputable def accVal (labels dists : List (List ℝ)) : ℚ :=
  (((labels.zip dists).countP (fun p => argmaxRow p.1 == argmaxRow p.2) : ℚ))
    / (((labels.zip dists).length : ℚ))

/-- The accuracy reported by `MatchingNet.loss` for the episode. -/
noncomputable def accOf {α : Type} (metric : Metric) (encode : α → List ℝ) (s : Sample α) : ℚ :=
  accVal (labelsOf metric encode s) (distsOf metric encode s)

/-- Log-probability assigned by the softmax of `row` to index `t`. -/
noncomputable def logSoftmaxAt (row : List ℝ) (t : Nat) : ℝ :=
  Real.log (Real.exp (row.getD t 0) / ((row.map Real.exp).sum))

/-- Line 82-83: `nn.CrossEntropyLoss()` with mean reduction applied to the
aggregated similarities (as logits) and the target class indices. -/
noncomputable def cross_entropy (dists : List (List ℝ)) (targets : List Nat) : ℝ :=
  -(((dists.zip targets).map (fun p => logSoftmaxAt p.1 p.2)).sum)
    / (((dists.zip targets).length : ℝ))

/-- The scalar loss value of the episode (line 83). -/
noncomputable def lossValOf {α : Type} (metric : Metric) (encode : α → List ℝ)
    (s : Sample α) : ℝ :=
  cross_entropy (distsOf metric encode s) ((labelsOf metric encode s).map argmaxRow)

/-- Line 89: `y_hat = distances_from_query_to_classes.argmax(1)`. -/
noncomputable def yHatOf {α : Type} (metric : Metric) (encode : α → List ℝ)
    (s : Sample α) : List Nat :=
  (distsOf metric encode s).map argmaxRow

/-! ## The module state and `test_step` (lines 28-34, 110-131) -/

/-- The `MatchingNet` module: its parameters are the encoder's weights
(captured by the embedding function), the configured metric, and the
`nn.Module` training flag toggled by `self.train()` / `self.eval()`. -/
structure Model (α : Type) where
  encode : α → List ℝ
  metric : Metric
  training : Bool

/-- Per-episode metrics as collected by `test_step`: (loss, acc). -/
noncomputable def lossMetricsOf {α : Type} (m : Model α) (s : Sample α) : ℝ × ℚ :=
  (lossValOf m.metric m.encode s, accOf m.metric m.encode s)

/-- Lines 110-131: `test_step`.  Switches the module to evaluation mode,
samples `nEpisodes` episodes from the seeded sampler (modelled as a function
from episode index to episode), computes loss/accuracy per episode under
`torch.no_grad()` (no parameter update anywhere in the body; the optimizer is
not even an argument), and returns the arithmetic means.  The returned model
is the module state after the call. -/
noncomputable def test_step {α : Type} (m : Model α) (sampler : Nat → Sample α)
    (nEpisodes : Nat) : Model α × (ℝ × ℚ) :=
  let mEval : Model α := { m with training := false }
  let results := (List.range nEpisodes).map (fun i => lossMetricsOf mEval (sampler i))
  (mEval,
    ((results.map Prod.fst).sum / (nEpisodes : ℝ),
     (results.map Prod.snd).sum / (nEpisodes : ℚ)))


/-! ## The training-loop orchestrator (`run_matching`, lines 207-291)

Metric values flowing through the loop are modelled as rationals (the loop
only appends, averages and compares them).  The external collaborators —
the sampler, the encoder forward/backward and the optimizer update — are
abstracted into an oracle giving, for each step index, the train metrics of
that step's episode, and for each evaluation, the averaged metrics
`test_step` returns on the validation and test splits. -/

/-- The configuration surface of `run_matching` consumed by the loop.
`earlyStop = 0` renders `if early_stop and ...` false, exactly as the Python
falsy values `None` and `0` do. -/
structure LoopCfg where
  maxIter : Nat
  logEvery : Nat
  evaluateEvery : Nat
  earlyStop : Nat
  hasValid : Bool
  hasTest : Bool

/-- Results of the external collaborators, per step index. -/
structure Oracle where
  trainAcc : Nat → ℚ
  trainLoss : Nat → ℚ
  validAcc : Nat → ℚ
  validLoss : Nat → ℚ
  testAcc : Nat → ℚ
  testLoss : Nat → ℚ

/-- The mutable state of the training loop (lines 207-210 initialise it). -/
structure LoopState where
  trainAccWindow : List ℚ
  trainLossWindow : List ℚ
  nEvalSinceLastBest : Nat
  bestValidAcc : ℚ
  trainLogs : List Nat
  validLogs : List (Nat × ℚ)
  testLogs : List (Nat × ℚ)
  stepsExecuted : Nat

/-- Lines 207-210: empty windows, counter 0, `best_valid_acc = 0.0`. -/
def initState : LoopState :=
  { trainAccWindow := []
    trainLossWindow := []
    nEvalSinceLastBest := 0
    bestValidAcc := 0
    trainLogs := []
    validLogs := []
    testLogs := []
    stepsExecuted := 0 }

/-- Lines 213-221: one `train_step` plus appending its metrics to the
rolling windows. -/
def trainPhase (o : Oracle) (s : Nat) (st : LoopState) : LoopState :=
  { st with
    stepsExecuted := st.stepsExecuted + 1
    trainAccWindow := st.trainAccWindow ++ [o.trainAcc s]
    trainLossWindow := st.trainLossWindow ++ [o.trainLoss s] }

/-- Lines 224-244: every `log_every` steps, emit a train log record and
reset the windows. -/
def logPhase (cfg : LoopCfg) (s : Nat) (st : LoopState) : LoopState :=
  if (s + 1) % cfg.logEvery = 0 then
    { st with
      trainLogs := st.trainLogs ++ [s]
      trainAccWindow := []
      trainLossWindow := [] }
  else st

/-- Lines 280-287: the validation branch of the evaluation cycle: record the
evaluation, then compare to the best accuracy with strict greater-than;
on improvement update the best and reset the counter, otherwise increment. -/
def validUpdate (o : Oracle) (s : Nat) (st : LoopState) : LoopState :=
  let a := o.validAcc s
  let st1 := { st with validLogs := st.validLogs ++ [(s, a)] }
  if st1.bestValidAcc < a then
    { st1 with bestValidAcc := a, nEvalSinceLastBest := 0 }
  else
    { st1 with nEvalSinceLastBest := st1.nEvalSinceLastBest + 1 }

/-- Lines 246-291: the evaluation cycle.  Runs only when a held-out split is
configured and the step index hits the `evaluate_every` cadence; evaluates
validation then test (in that order), and finally decides the early-stopping
break: `if early_stop and n_eval_since_last_best >= early_stop: break`. -/
def evalPhase (cfg : LoopCfg) (o : Oracle) (s : Nat) (st : LoopState) : LoopState × Bool :=
  if (cfg.hasValid || cfg.hasTest) = true ∧ (s + 1) % cfg.evaluateEvery = 0 then
    let st1 := if cfg.hasValid then validUpdate o s st else st
    let st2 := if cfg.hasTest then
        { st1 with testLogs := st1.testLogs ++ [(s, o.testAcc s)] }
      else st1
    (st2, if cfg.earlyStop ≠ 0 ∧ cfg.earlyStop ≤ st2.nEvalSinceLastBest then true else false)
  else (st, false)

/-- One iteration of the `for step in range(max_iter)` body: train, maybe
log, maybe evaluate; the boolean is the `break` decision. -/
def doStep (cfg : LoopCfg) (o : Oracle) (s : Nat) (st : LoopState) : LoopState × Bool :=
  evalPhase cfg o s (logPhase cfg s (trainPhase o s st))

/-- Runs the loop body for at most `fuel` more iterations starting at step
index `s`, stopping early when an iteration breaks. -/
def runFrom (cfg : LoopCfg) (o : Oracle) : Nat → Nat → LoopState → LoopState
  | 0, _, st => st
  | fuel + 1, s, st =>
    let r := doStep cfg o s st
    if r.2 then r.1 else runFrom cfg o fuel (s + 1) r.1

/-- Lines 212-291: the whole `for step in range(max_iter)` loop. -/
def runLoop (cfg : LoopCfg) (o : Oracle) : LoopState :=
  runFrom cfg o cfg.maxIter 0 initState

/-! ## Helper lemmas about flattening -/

/-- A list of `n` groups, each of length `k`, flattens to `n * k` items. -/
theorem length_flatten_const {α : Type} (L : List (List α)) (k : Nat)
    (h : ∀ g ∈ L, g.length = k) : L.flatten.length = L.length * k := by
  induction L with
  | nil => simp
  | cons g t ih =>
    simp only [List.flatten_cons, List.length_append, List.length_cons]
    rw [h g (List.mem_cons_self g t), ih (fun g hg => h g (List.mem_cons_of_mem _ hg))]
    ring

theorem zAll_length {α : Type} (encode : α → List ℝ) (s : Sample α) :
    (zAll encode s).length = s.xs.flatten.length + s.xq.flatten.length := by
  simp only [zAll, List.length_map, xFlat, List.length_append]

/-- `n_class * n_support` equals `N * K` on a well-formed episode. -/
theorem n_mul_support {α : Type} (s : Sample α) (N K : Nat)
    (hxs : s.xs.length = N) (hN : 0 < N) (hK : ∀ g ∈ s.xs, g.length = K) :
    n_classOf s * n_supportOf s = N * K := by
  cases hcase : s.xs with
  | nil => rw [hcase] at hxs; simp at hxs; omega
  | cons g t =>
    have hg : g.length = K := hK g (by rw [hcase]; exact List.mem_cons_self g t)
    simp [n_classOf, n_supportOf, hcase, hg, ← hxs, hcase]

/-- `n_query` equals `Q` on a well-formed episode. -/
theorem n_query_eq {α : Type} (s : Sample α) (N Q : Nat)
    (hxq : s.xq.length = N) (hN : 0 < N) (hQ : ∀ g ∈ s.xq, g.length = Q) :
    n_queryOf s = Q := by
  cases hcase : s.xq with
  | nil => rw [hcase] at hxq; simp at hxq; omega
  | cons g t =>
    have hg : g.length = Q := hQ g (by rw [hcase]; exact List.mem_cons_self g t)
    simp [n_queryOf, hcase, hg]

/-- C2: on a well-formed episode, `MatchingNet.loss` flattens all support
items (class-major) followed by all query items into one sequence, applies
the encoder once to that concatenation, and splits the result into
`z_support` = the first `N·K` embeddings (exactly the embeddings of the
flattened support items) and `z_query` = the remaining `N·Q` embeddings
(exactly the embeddings of the flattened query items). -/
theorem loss_flattens_and_splits {α : Type} (encode : α → List ℝ) (s : Sample α)
    (N K Q : Nat) (hxs : s.xs.length = N) (hxq : s.xq.length = N) (hN : 0 < N)
    (hK : ∀ g ∈ s.xs, g.length = K) (hQ : ∀ g ∈ s.xq, g.length = Q) :
    xFlat s = s.xs.flatten ++ s.xq.flatten
    ∧ zAll encode s = (xFlat s).map encode
    ∧ z_support encode s = s.xs.flatten.map encode
    ∧ z_query encode s = s.xq.flatten.map encode
    ∧ (z_support encode s).length = N * K
    ∧ (z_query encode s).length = N * Q := by
  have hlenS : s.xs.flatten.length = N * K := by
    rw [length_flatten_const s.xs K hK, hxs]
  have hlenQ : s.xq.flatten.length = N * Q := by
    rw [length_flatten_const s.xq Q hQ, hxq]
  have hNK : n_classOf s * n_supportOf s = N * K := n_mul_support s N K hxs hN hK
  have hmap : zAll encode s = s.xs.flatten.map encode ++ s.xq.flatten.map encode := by
    simp [zAll, xFlat]
  have hsup : z_support encode s = s.xs.flatten.map encode := by
    rw [z_support, hmap, hNK]
    have : N * K = (s.xs.flatten.map encode).length := by
      rw [List.length_map, hlenS]
    rw [this, List.take_left]
  have hqry : z_query encode s = s.xq.flatten.map encode := by
    rw [z_query, hmap, hNK]
    have : N * K = (s.xs.flatten.map encode).length := by
      rw [List.length_map, hlenS]
    rw [this, List.drop_left]
  refine ⟨rfl, rfl, hsup, hqry, ?_, ?_⟩
  · rw [hsup, List.length_map, hlenS]
  · rw [hqry, List.length_map, hlenQ]

/-- C2 witness: a concrete 2-way 1-shot episode with one query per class. -/
theorem loss_flattens_and_splits_witness :
    let s : Sample Nat := Sample.mk [[10], [20]] [[30], [40]]
    let encode : Nat → List ℝ := fun _ => [0]
    z_support encode s = s.xs.flatten.map encode
    ∧ z_query encode s = s.xq.flatten.map encode
    ∧ (z_support encode s).length = 2 * 1 ∧ (z_query encode s).length = 2 * 1 :=
  let s : Sample Nat := Sample.mk [[10], [20]] [[30], [40]]
  let encode : Nat → List ℝ := fun _ => [0]
  let h := loss_flattens_and_splits encode s 2 1 1 (by decide) (by decide) (by decide)
    (by decide) (by decide)
  ⟨h.2.2.1, h.2.2.2.1, h.2.2.2.2.1, h.2.2.2.2.2⟩

/-- C7: `test_step` leaves the model parameters (the encoder weights,
captured here by the embedding function) and the configured metric
unchanged — it only toggles the `nn.Module` training flag via `self.eval()`,
and the optimizer is not even an argument, so its state cannot be touched —
and running it twice in a row with the same seeded sampler (the second call
starting from the module state the first call left behind) returns identical
loss and accuracy metrics. -/
theorem test_step_preserves_params_and_is_deterministic {α : Type} (m : Model α)
    (sampler : Nat → Sample α) (nEpisodes : Nat) :
    (test_step m sampler nEpisodes).1.encode = m.encode
    ∧ (test_step m sampler nEpisodes).1.metric = m.metric
    ∧ (test_step ((test_step m sampler nEpisodes).1) sampler nEpisodes).2
        = (test_step m sampler nEpisodes).2 :=
  ⟨rfl, rfl, rfl⟩

/-- C4 counterexample: the episode `xs = [[], ["a"]]`, `xq = [["b"], ["c"]]`
has an empty support group — it is malformed — yet every check executed
before the encoder call passes: `MatchingNet.loss` proceeds to invoke the
encoder (with `n_support = 0`, later yielding an empty mean, i.e. NaN)
instead of failing with a descriptive error. -/
theorem malformed_episode_reaches_encoder :
    preEncoderCheck (Sample.mk ([[], ["a"]] : List (List String)) [["b"], ["c"]])
      = Except.ok (2, 0, 1, ["a", "b", "c"]) := rfl

/-- C4 (amended): `MatchingNet.loss` fails before the encoder call exactly
when the support/query class-group counts differ (the `assert` on line 58)
or the support list is entirely empty (`xs[0]` raising `IndexError`); an
empty individual support or query group is *not* detected, and the encoder
is still invoked. -/
theorem preEncoderCheck_error_iff {α : Type} (s : Sample α) :
    (∃ e, preEncoderCheck s = Except.error e)
      ↔ (s.xq.length ≠ s.xs.length ∨ s.xs = []) := by
  constructor
  · intro ⟨e, he⟩
    by_contra hcon
    push_neg at hcon
    obtain ⟨hlen, hxs⟩ := hcon
    cases hxscase : s.xs with
    | nil => exact hxs hxscase
    | cons g t =>
      cases hxqcase : s.xq with
      | nil =>
        rw [hxqcase, hxscase] at hlen
        simp at hlen
      | cons h u =>
        rw [preEncoderCheck, if_pos hlen, hxscase, hxqcase] at he
        simp at he
  · intro h
    rcases h with hlen | hxs
    · exact ⟨"AssertionError", by rw [preEncoderCheck, if_neg hlen]⟩
    · by_cases hlen : s.xq.length = s.xs.length
      · refine ⟨"IndexError: list index out of range", ?_⟩
        rw [preEncoderCheck, if_pos hlen, hxs]
      · exact ⟨"AssertionError", by rw [preEncoderCheck, if_neg hlen]⟩

/-- `getD` through a `map`, inside the bounds. -/
theorem getD_map_of_lt {β γ : Type} (f : β → γ) (l : List β) (i : Nat)
    (h : i < l.length) (d : γ) : (l.map f).getD i d = f l[i] := by
  have h2 : i < (l.map f).length := by simpa using h
  rw [List.getD_eq_getElem _ _ h2, List.getElem_map]

/-- C3: entry `(i, j)` of the similarity matrix is, in euclidean mode, the
*negative* Euclidean distance between query embedding `i` and support
embedding `j`, and in cosine mode their cosine similarity multiplied by the
constant 5. -/
theorem similarity_dispatch (zq zs : List (List ℝ)) (i j : Nat)
    (hi : i < zq.length) (hj : j < zs.length) :
    entry (similarities Metric.euclidean zq zs) i j
      = -Real.sqrt ((((zq[i]).zip (zs[j])).map (fun p => (p.1 - p.2) ^ 2)).sum)
    ∧ entry (similarities Metric.cosine zq zs) i j
      = (dot zq[i] zs[j]
          / (Real.sqrt (dot zq[i] zq[i]) * Real.sqrt (dot zs[j] zs[j]))) * 5 := by
  constructor
  · rw [entry, similarities, euclidean_dist, List.map_map,
      getD_map_of_lt _ _ _ hi, Function.comp_apply, List.map_map,
      getD_map_of_lt _ _ _ hj, Function.comp_apply]
  · rw [entry, similarities, cosine_similarity, List.map_map,
      getD_map_of_lt _ _ _ hi, Function.comp_apply, List.map_map,
      getD_map_of_lt _ _ _ hj, Function.comp_apply]

/-- C3 witness: the dispatch evaluated on a concrete pair of embeddings. -/
theorem similarity_dispatch_witness :
    entry (similarities Metric.euclidean [[(1 : ℝ), 0]] [[(0 : ℝ), 1]]) 0 0
      = -Real.sqrt (((([(1 : ℝ), 0]).zip ([(0 : ℝ), 1])).map
          (fun p => (p.1 - p.2) ^ 2)).sum)
    ∧ entry (similarities Metric.cosine [[(1 : ℝ), 0]] [[(0 : ℝ), 1]]) 0 0
      = (dot [(1 : ℝ), 0] [(0 : ℝ), 1]
          / (Real.sqrt (dot [(1 : ℝ), 0] [(1 : ℝ), 0])
              * Real.sqrt (dot [(0 : ℝ), 1] [(0 : ℝ), 1]))) * 5 :=
  similarity_dispatch [[(1 : ℝ), 0]] [[(0 : ℝ), 1]] 0 0 (by simp) (by simp)

/-! ## Lemmas about the loop state machine -/

theorem logPhase_stepsExecuted (cfg : LoopCfg) (s : Nat) (st : LoopState) :
    (logPhase cfg s st).stepsExecuted = st.stepsExecuted := by
  rw [logPhase]; split <;> rfl

theorem validUpdate_stepsExecuted (o : Oracle) (s : Nat) (st : LoopState) :
    (validUpdate o s st).stepsExecuted = st.stepsExecuted := by
  rw [validUpdate]; split <;> rfl

theorem evalPhase_stepsExecuted (cfg : LoopCfg) (o : Oracle) (s : Nat) (st : LoopState) :
    ((evalPhase cfg o s st).1).stepsExecuted = st.stepsExecuted := by
  rw [evalPhase]
  split
  · split <;> split <;>
      simp only [validUpdate_stepsExecuted]
  · rfl

theorem doStep_stepsExecuted (cfg : LoopCfg) (o : Oracle) (s : Nat) (st : LoopState) :
    ((doStep cfg o s st).1).stepsExecuted = st.stepsExecuted + 1 := by
  rw [doStep, evalPhase_stepsExecuted, logPhase_stepsExecuted, trainPhase]

theorem doStep_no_break_of_earlyStop_zero (cfg : LoopCfg) (o : Oracle)
    (h : cfg.earlyStop = 0) (s : Nat) (st : LoopState) :
    (doStep cfg o s st).2 = false := by
  rw [doStep, evalPhase]
  split
  · simp [h]
  · rfl

/-- With early stopping disabled, `runFrom` consumes all its fuel, executing
one training step per unit of fuel. -/
theorem runFrom_stepsExecuted_of_earlyStop_zero (cfg : LoopCfg) (o : Oracle)
    (h : cfg.earlyStop = 0) :
    ∀ fuel s st, (runFrom cfg o fuel s st).stepsExecuted = st.stepsExecuted + fuel := by
  intro fuel
  induction fuel with
  | zero => intro s st; rfl
  | succ n ih =>
    intro s st
    rw [runFrom, doStep_no_break_of_earlyStop_zero cfg o h]
    simp only [Bool.false_eq_true, if_false, ih, doStep_stepsExecuted]
    omega

/-- C5: early stopping in `run_matching`.  (1) With `early_stop` unset or 0
the break condition is never taken and the loop runs all `max_iter` training
steps.  (2) An iteration breaks exactly when a held-out split is configured,
the step hits the evaluation cadence, `early_stop` is non-zero, and the
consecutive-non-improvement counter (as updated by that evaluation cycle)
has reached the `early_stop` threshold.  (3) When an iteration breaks, the
loop's final state is that iteration's post-evaluation state — no further
training step is executed. -/
theorem early_stopping_correct (cfg : LoopCfg) (o : Oracle) :
    (cfg.earlyStop = 0 → (runLoop cfg o).stepsExecuted = cfg.maxIter)
    ∧ (∀ s st, (doStep cfg o s st).2 = true ↔
        ((cfg.hasValid || cfg.hasTest) = true ∧ (s + 1) % cfg.evaluateEvery = 0
          ∧ cfg.earlyStop ≠ 0
          ∧ cfg.earlyStop ≤ ((doStep cfg o s st).1).nEvalSinceLastBest))
    ∧ (∀ fuel s st, (doStep cfg o s st).2 = true →
        runFrom cfg o (fuel + 1) s st = (doStep cfg o s st).1) := by
  refine ⟨?_, ?_, ?_⟩
  · intro h
    rw [runLoop, runFrom_stepsExecuted_of_earlyStop_zero cfg o h]
    simp [initState]
  · intro s st
    rw [doStep]
    simp only [evalPhase]
    split
    · rename_i h
      simp [h.1, h.2]
    · rename_i h
      simp only [Bool.false_eq_true, false_iff]
      intro hcon
      exact h ⟨hcon.1, hcon.2.1⟩
  · intro fuel s st h
    rw [runFrom]
    simp [h]

/-- A concrete oracle where every sampled metric is 0. -/
def oracleW : Oracle :=
  { trainAcc := fun _ => 0
    trainLoss := fun _ => 0
    validAcc := fun _ => 0
    validLoss := fun _ => 0
    testAcc := fun _ => 0
    testLoss := fun _ => 0 }

/-- C5 witness: with `early_stop = 0` a 3-step loop executes all 3 steps;
with `early_stop = 1`, a validation split and accuracy stuck at 0, the first
evaluation cycle (at step 0) trips the break and the remaining fuel is
discarded. -/
theorem early_stopping_correct_witness :
    (runLoop (LoopCfg.mk 3 1 1 0 false false) oracleW).stepsExecuted
        = (LoopCfg.mk 3 1 1 0 false false).maxIter
    ∧ runFrom (LoopCfg.mk 5 1 1 1 true false) oracleW (4 + 1) 0 initState
        = (doStep (LoopCfg.mk 5 1 1 1 true false) oracleW 0 initState).1 :=
  ⟨(early_stopping_correct (LoopCfg.mk 3 1 1 0 false false) oracleW).1 rfl,
   (early_stopping_correct (LoopCfg.mk 5 1 1 1 true false) oracleW).2.2 4 0 initState
     (by decide)⟩

theorem trainPhase_logs (o : Oracle) (s : Nat) (st : LoopState) :
    (trainPhase o s st).trainLogs = st.trainLogs
    ∧ (trainPhase o s st).validLogs = st.validLogs
    ∧ (trainPhase o s st).testLogs = st.testLogs := ⟨rfl, rfl, rfl⟩

theorem logPhase_logs (cfg : LoopCfg) (s : Nat) (st : LoopState) :
    (logPhase cfg s st).validLogs = st.validLogs
    ∧ (logPhase cfg s st).testLogs = st.testLogs
    ∧ (logPhase cfg s st).trainLogs.length = st.trainLogs.length
        + (if (s + 1) % cfg.logEvery = 0 then 1 else 0) := by
  rw [logPhase]
  split <;> rename_i h <;> simp [h]

theorem evalPhase_no_split (cfg : LoopCfg) (o : Oracle) (s : Nat) (st : LoopState)
    (h1 : cfg.hasValid = false) (h2 : cfg.hasTest = false) :
    evalPhase cfg o s st = (st, false) := by
  rw [evalPhase, if_neg]
  intro hcon
  rw [h1, h2] at hcon
  simp at hcon

/-- Without a held-out split, every iteration runs to completion: the loop
executes one training step per unit of fuel, never records an evaluation,
and emits one train log record per `log_every` cadence hit. -/
theorem runFrom_no_split (cfg : LoopCfg) (o : Oracle)
    (h1 : cfg.hasValid = false) (h2 : cfg.hasTest = false) :
    ∀ fuel s st,
      (runFrom cfg o fuel s st).stepsExecuted = st.stepsExecuted + fuel
      ∧ (runFrom cfg o fuel s st).validLogs = st.validLogs
      ∧ (runFrom cfg o fuel s st).testLogs = st.testLogs
      ∧ (runFrom cfg o fuel s st).trainLogs.length = st.trainLogs.length
          + (List.range fuel).countP (fun i => (s + i + 1) % cfg.logEvery == 0) := by
  intro fuel
  induction fuel with
  | zero => intro s st; simp [runFrom]
  | succ n ih =>
    intro s st
    rw [runFrom]
    have hstep : doStep cfg o s st = (logPhase cfg s (trainPhase o s st), false) := by
      rw [doStep, evalPhase_no_split cfg o s _ h1 h2]
    rw [hstep]
    simp only [Bool.false_eq_true, if_false]
    obtain ⟨hsteps, hvalid, htest, htrain⟩ := ih (s + 1) (logPhase cfg s (trainPhase o s st))
    refine ⟨?_, ?_, ?_, ?_⟩
    · rw [hsteps, logPhase_stepsExecuted]
      show st.stepsExecuted + 1 + n = st.stepsExecuted + (n + 1)
      omega
    · rw [hvalid, (logPhase_logs cfg s _).1, (trainPhase_logs o s st).2.1]
    · rw [htest, (logPhase_logs cfg s _).2.1, (trainPhase_logs o s st).2.2]
    · rw [htrain, (logPhase_logs cfg s _).2.2, (trainPhase_logs o s st).1]
      rw [List.range_succ_eq_map, List.countP_cons, List.countP_map]
      have hfun : ((fun i => (s + i + 1) % cfg.logEvery == 0) ∘ Nat.succ)
          = fun i => (s + 1 + i + 1) % cfg.logEvery == 0 := by
        funext i
        simp only [Function.comp_apply, Nat.succ_eq_add_one]
        congr 2
        omega
      rw [hfun]
      by_cases hmod : (s + 1) % cfg.logEvery = 0
      · simp [hmod]
        omega
      · simp [hmod]

/-- The number of `log_every` cadence hits among the first `n` steps is
`n / log_every`. -/
theorem count_log_records (L : Nat) :
    ∀ n, (List.range n).countP (fun i => (i + 1) % L == 0) = n / L := by
  intro n
  induction n with
  | zero => simp
  | succ m ih =>
    rw [List.range_succ, List.countP_append, ih, Nat.succ_div]
    by_cases h : (m + 1) % L = 0
    · have hdvd : L ∣ (m + 1) := Nat.dvd_of_mod_eq_zero h
      simp [h, hdvd]
    · have hdvd : ¬ L ∣ (m + 1) := fun hd => h (Nat.mod_eq_zero_of_dvd hd)
      simp [h, hdvd]

/-- C9: with `max_iter = 10` and no validation or test path configured
(and a positive `log_every`, which the configuration surface requires — the
Python loop would divide by zero otherwise), the loop executes exactly 10
training steps, emits exactly `10 / log_every` train log records, records
no evaluation, and terminates by exhausting `max_iter`. -/
theorem run_without_heldout_split (o : Oracle) (L E ES : Nat) (hL : 0 < L) :
    (runLoop (LoopCfg.mk 10 L E ES false false) o).stepsExecuted = 10
    ∧ (runLoop (LoopCfg.mk 10 L E ES false false) o).trainLogs.length = 10 / L
    ∧ (runLoop (LoopCfg.mk 10 L E ES false false) o).validLogs = []
    ∧ (runLoop (LoopCfg.mk 10 L E ES false false) o).testLogs = [] := by
  obtain ⟨hsteps, hvalid, htest, htrain⟩ :=
    runFrom_no_split (LoopCfg.mk 10 L E ES false false) o rfl rfl 10 0 initState
  rw [runLoop]
  refine ⟨?_, ?_, ?_, ?_⟩
  · rw [hsteps]; rfl
  · rw [htrain]
    have : (fun i => (0 + i + 1) % L == 0) = fun i => (i + 1) % L == 0 := by
      funext i
      congr 2
      omega
    rw [show (LoopCfg.mk 10 L E ES false false).logEvery = L from rfl, this,
      count_log_records L 10]
    simp [initState]
  · rw [hvalid]; rfl
  · rw [htest]; rfl

/-- C9 witness: `log_every = 3` gives three train log records over 10 steps. -/
theorem run_without_heldout_split_witness :
    (runLoop (LoopCfg.mk 10 3 7 0 false false) oracleW).stepsExecuted = 10
    ∧ (runLoop (LoopCfg.mk 10 3 7 0 false false) oracleW).trainLogs.length = 10 / 3
    ∧ (runLoop (LoopCfg.mk 10 3 7 0 false false) oracleW).validLogs = []
    ∧ (runLoop (LoopCfg.mk 10 3 7 0 false false) oracleW).testLogs = [] :=
  run_without_heldout_split oracleW 3 7 0 (by decide)

/-! ## The best-accuracy / counter tracker (C6, C10) -/

/-- The effect of one validation comparison (lines 281-287) on the pair
(best accuracy, consecutive-non-improvement counter). -/
def evalStep (p : ℚ × Nat) (a : ℚ) : ℚ × Nat :=
  if p.1 < a then (a, 0) else (p.1, p.2 + 1)

/-- The tracker state after a sequence of validation accuracies, starting
from `best_valid_acc = 0.0` and counter 0. -/
def foldEvals (l : List ℚ) : ℚ × Nat := l.foldl evalStep (0, 0)

/-- Running best over a prefix (with the initial best of 0). -/
def prefixBest (l : List ℚ) : ℚ := l.foldl max 0

/-- The `j`-th validation evaluation strictly improved on the best seen at
that moment. -/
def improveAt (l : List ℚ) (j : Nat) : Prop := prefixBest (l.take j) < l.getD j 0

/-- The accuracies of the validation evaluations recorded so far. -/
def validAccs (st : LoopState) : List ℚ := st.validLogs.map Prod.snd

theorem foldl_evalStep_fst (l : List ℚ) :
    ∀ b c, (l.foldl evalStep (b, c)).1 = l.foldl max b := by
  induction l with
  | nil => intro b c; rfl
  | cons a t ih =>
    intro b c
    rw [List.foldl_cons, List.foldl_cons]
    by_cases h : b < a
    · rw [show evalStep (b, c) a = (a, 0) from if_pos h, ih,
        max_eq_right h.le]
    · rw [show evalStep (b, c) a = (b, c + 1) from if_neg h, ih,
        max_eq_left (not_lt.mp h)]

theorem foldEvals_fst (l : List ℚ) : (foldEvals l).1 = prefixBest l :=
  foldl_evalStep_fst l 0 0

theorem foldEvals_append (l : List ℚ) (a : ℚ) :
    foldEvals (l ++ [a]) = evalStep (foldEvals l) a := by
  rw [foldEvals, List.foldl_append, List.foldl_cons, List.foldl_nil]
  rfl

theorem improveAt_append (t : List ℚ) (a : ℚ) (j : Nat) (hj : j < t.length) :
    improveAt (t ++ [a]) j ↔ improveAt t j := by
  rw [improveAt, improveAt, List.take_append_of_le_length hj.le,
    List.getD_append _ _ _ _ hj]

theorem improveAt_last (t : List ℚ) (a : ℚ) :
    improveAt (t ++ [a]) t.length ↔ prefixBest t < a := by
  rw [improveAt, List.take_left, List.getD_append_right _ _ _ _ (le_refl t.length)]
  simp

/-- The tracker counter equals the number of evaluations processed after the
last strictly-improving one (all of them when none ever improved). -/
theorem foldEvals_counter (l : List ℚ) :
    ∃ k, k ≤ l.length ∧ (foldEvals l).2 = l.length - k
      ∧ (k = 0 ∨ (k - 1 < l.length ∧ improveAt l (k - 1)))
      ∧ ∀ j, k ≤ j → j < l.length → ¬ improveAt l j := by
  induction l using List.reverseRecOn with
  | nil =>
    refine ⟨0, le_refl 0, rfl, Or.inl rfl, ?_⟩
    intro j _ hj
    simp at hj
  | append_singleton t a ih =>
    obtain ⟨k, hk, hc, him, hnone⟩ := ih
    rw [foldEvals_append]
    by_cases h : (foldEvals t).1 < a
    · refine ⟨t.length + 1, ?_, ?_, ?_, ?_⟩
      · simp
      · rw [show evalStep (foldEvals t) a = (a, 0) from by
          rw [evalStep, if_pos h]]
        simp
      · refine Or.inr ⟨?_, ?_⟩
        · simp
        · rw [Nat.add_sub_cancel, improveAt_last]
          rw [foldEvals_fst] at h
          exact h
      · intro j h1 h2
        simp only [List.length_append, List.length_singleton] at h2
        omega
    · refine ⟨k, ?_, ?_, ?_, ?_⟩
      · simp
        omega
      · rw [show evalStep (foldEvals t) a = ((foldEvals t).1, (foldEvals t).2 + 1) from by
          rw [evalStep, if_neg h]]
        simp only [List.length_append, List.length_singleton, hc]
        omega
      · rcases him with h0 | ⟨hlt, himp⟩
        · exact Or.inl h0
        · refine Or.inr ⟨?_, ?_⟩
          · simp
            omega
          · rw [improveAt_append t a _ hlt]
            exact himp
      · intro j h1 h2
        simp only [List.length_append, List.length_singleton] at h2
        by_cases hj : j < t.length
        · rw [improveAt_append t a j hj]
          exact hnone j h1 hj
        · have : j = t.length := by omega
          rw [this, improveAt_last]
          rw [foldEvals_fst] at h
          exact h

theorem trainPhase_tracker (o : Oracle) (s : Nat) (st : LoopState) :
    (trainPhase o s st).bestValidAcc = st.bestValidAcc
    ∧ (trainPhase o s st).nEvalSinceLastBest = st.nEvalSinceLastBest
    ∧ (trainPhase o s st).validLogs = st.validLogs := ⟨rfl, rfl, rfl⟩

theorem logPhase_tracker (cfg : LoopCfg) (s : Nat) (st : LoopState) :
    (logPhase cfg s st).bestValidAcc = st.bestValidAcc
    ∧ (logPhase cfg s st).nEvalSinceLastBest = st.nEvalSinceLastBest
    ∧ (logPhase cfg s st).validLogs = st.validLogs := by
  rw [logPhase]
  split <;> exact ⟨rfl, rfl, rfl⟩

/-- The validation branch appends the evaluated accuracy to the log and
transforms the (best, counter) pair exactly by `evalStep`. -/
theorem validUpdate_tracker (o : Oracle) (s : Nat) (st : LoopState) :
    (validUpdate o s st).validLogs = st.validLogs ++ [(s, o.validAcc s)]
    ∧ ((validUpdate o s st).bestValidAcc, (validUpdate o s st).nEvalSinceLastBest)
        = evalStep (st.bestValidAcc, st.nEvalSinceLastBest) (o.validAcc s) := by
  rw [validUpdate, evalStep]
  split <;> exact ⟨rfl, rfl⟩

/-- The tracker invariant: the loop's (best accuracy, counter) pair always
equals the tracker fold over the validation accuracies recorded so far. -/
def TrackerInv (st : LoopState) : Prop :=
  (st.bestValidAcc, st.nEvalSinceLastBest) = foldEvals (validAccs st)

theorem trackerInv_init : TrackerInv initState := rfl

theorem trackerInv_doStep (cfg : LoopCfg) (o : Oracle) (s : Nat) (st : LoopState)
    (h : TrackerInv st) : TrackerInv (doStep cfg o s st).1 := by
  have h1 : TrackerInv (logPhase cfg s (trainPhase o s st)) := by
    rw [TrackerInv, validAccs, (logPhase_tracker cfg s _).1, (logPhase_tracker cfg s _).2.1,
      (logPhase_tracker cfg s _).2.2, (trainPhase_tracker o s st).1,
      (trainPhase_tracker o s st).2.1, (trainPhase_tracker o s st).2.2]
    exact h
  rw [doStep]
  simp only [evalPhase]
  have h2 : TrackerInv (if cfg.hasValid = true
      then validUpdate o s (logPhase cfg s (trainPhase o s st))
      else logPhase cfg s (trainPhase o s st)) := by
    split
    · rw [TrackerInv, validAccs, (validUpdate_tracker o s _).1,
        (validUpdate_tracker o s _).2, List.map_append]
      rw [show ((([(s, o.validAcc s)]).map Prod.snd) = [o.validAcc s]) from rfl,
        foldEvals_append]
      rw [TrackerInv, validAccs] at h1
      rw [h1]
    · exact h1
  split
  · split
    · exact h2
    · exact h2
  · exact h1

theorem trackerInv_runFrom (cfg : LoopCfg) (o : Oracle) :
    ∀ fuel s st, TrackerInv st → TrackerInv (runFrom cfg o fuel s st) := by
  intro fuel
  induction fuel with
  | zero => intro s st h; exact h
  | succ n ih =>
    intro s st h
    rw [runFrom]
    split
    · exact trackerInv_doStep cfg o s st h
    · exact ih (s + 1) _ (trackerInv_doStep cfg o s st h)

/-- C6: (1) after each validation evaluation the comparison is a strict
greater-than against the best accuracy so far: on improvement the best is
replaced and the counter reset to 0, otherwise the counter is incremented
by 1; and (2) at every point of every run, the counter equals the number of
validation evaluations recorded after the last strictly-improving one
(all of them when no evaluation ever improved) — i.e. the number of
consecutive validation evaluations since the last strict improvement. -/
theorem counter_counts_non_improvements (cfg : LoopCfg) (o : Oracle) :
    (∀ s st,
      (validUpdate o s st).bestValidAcc
          = (if st.bestValidAcc < o.validAcc s then o.validAcc s else st.bestValidAcc)
      ∧ (validUpdate o s st).nEvalSinceLastBest
          = (if st.bestValidAcc < o.validAcc s then 0 else st.nEvalSinceLastBest + 1))
    ∧ (∀ fuel s, ∃ k,
        k ≤ (validAccs (runFrom cfg o fuel s initState)).length
        ∧ (runFrom cfg o fuel s initState).nEvalSinceLastBest
            = (validAccs (runFrom cfg o fuel s initState)).length - k
        ∧ (k = 0 ∨ (k - 1 < (validAccs (runFrom cfg o fuel s initState)).length
            ∧ improveAt (validAccs (runFrom cfg o fuel s initState)) (k - 1)))
        ∧ ∀ j, k ≤ j → j < (validAccs (runFrom cfg o fuel s initState)).length
            → ¬ improveAt (validAccs (runFrom cfg o fuel s initState)) j) := by
  constructor
  · intro s st
    by_cases h : st.bestValidAcc < o.validAcc s <;>
      exact ⟨by simp [validUpdate, h], by simp [validUpdate, h]⟩
  · intro fuel s
    have hinv := trackerInv_runFrom cfg o fuel s initState trackerInv_init
    rw [TrackerInv] at hinv
    have hcounter : (runFrom cfg o fuel s initState).nEvalSinceLastBest
        = (foldEvals (validAccs (runFrom cfg o fuel s initState))).2 :=
      congrArg Prod.snd hinv
    obtain ⟨k, hk, hc, him, hnone⟩ := foldEvals_counter (validAccs (runFrom cfg o fuel s initState))
    exact ⟨k, hk, by rw [hcounter, hc], him, hnone⟩

/-- C6 witness: the update rule and the counting property instantiated on a
concrete 3-step run with a validation split and accuracies stuck at 0. -/
theorem counter_counts_non_improvements_witness :
    ((validUpdate oracleW 0 initState).bestValidAcc
        = (if initState.bestValidAcc < oracleW.validAcc 0 then oracleW.validAcc 0
            else initState.bestValidAcc)
      ∧ (validUpdate oracleW 0 initState).nEvalSinceLastBest
        = (if initState.bestValidAcc < oracleW.validAcc 0 then 0
            else initState.nEvalSinceLastBest + 1))
    ∧ ∃ k,
        k ≤ (validAccs (runFrom (LoopCfg.mk 3 1 1 0 true false) oracleW 3 0 initState)).length
        ∧ (runFrom (LoopCfg.mk 3 1 1 0 true false) oracleW 3 0 initState).nEvalSinceLastBest
            = (validAccs (runFrom (LoopCfg.mk 3 1 1 0 true false) oracleW 3 0 initState)).length
              - k
        ∧ (k = 0
            ∨ (k - 1 < (validAccs (runFrom (LoopCfg.mk 3 1 1 0 true false) oracleW 3 0
                  initState)).length
              ∧ improveAt (validAccs (runFrom (LoopCfg.mk 3 1 1 0 true false) oracleW 3 0
                  initState)) (k - 1)))
        ∧ ∀ j, k ≤ j
            → j < (validAccs (runFrom (LoopCfg.mk 3 1 1 0 true false) oracleW 3 0
                initState)).length
            → ¬ improveAt (validAccs (runFrom (LoopCfg.mk 3 1 1 0 true false) oracleW 3 0
                initState)) j :=
  ⟨(counter_counts_non_improvements (LoopCfg.mk 3 1 1 0 true false) oracleW).1 0 initState,
   (counter_counts_non_improvements (LoopCfg.mk 3 1 1 0 true false) oracleW).2 3 0⟩

theorem validUpdate_best_mono (o : Oracle) (s : Nat) (st : LoopState) :
    st.bestValidAcc ≤ (validUpdate o s st).bestValidAcc := by
  by_cases h : st.bestValidAcc < o.validAcc s
  · simp only [validUpdate]
    rw [if_pos h]
    exact h.le
  · simp only [validUpdate]
    rw [if_neg h]

theorem doStep_best_mono (cfg : LoopCfg) (o : Oracle) (s : Nat) (st : LoopState) :
    st.bestValidAcc ≤ ((doStep cfg o s st).1).bestValidAcc := by
  rw [doStep]
  simp only [evalPhase]
  have hbase : (logPhase cfg s (trainPhase o s st)).bestValidAcc = st.bestValidAcc := by
    rw [(logPhase_tracker cfg s _).1, (trainPhase_tracker o s st).1]
  have hA : st.bestValidAcc
      ≤ (validUpdate o s (logPhase cfg s (trainPhase o s st))).bestValidAcc := by
    rw [← hbase]
    exact validUpdate_best_mono o s _
  have hB : st.bestValidAcc ≤ (logPhase cfg s (trainPhase o s st)).bestValidAcc :=
    le_of_eq hbase.symm
  split
  · split <;> split <;> first | exact hA | exact hB
  · exact hB

theorem runFrom_best_mono (cfg : LoopCfg) (o : Oracle) :
    ∀ fuel s st, st.bestValidAcc ≤ (runFrom cfg o fuel s st).bestValidAcc := by
  intro fuel
  induction fuel with
  | zero => intro s st; exact le_refl _
  | succ n ih =>
    intro s st
    rw [runFrom]
    split
    · exact doStep_best_mono cfg o s st
    · exact (doStep_best_mono cfg o s st).trans (ih (s + 1) _)

/-- C10: the best-validation-accuracy tracker starts at 0.0 and never drops
below 0 at any point of any run, and the comparison is strict, so a
validation evaluation whose accuracy is exactly 0 — the first evaluation of
the run included — leaves the best unchanged and increments the
consecutive-non-improvement counter. -/
theorem zero_accuracy_is_non_improvement (cfg : LoopCfg) (o : Oracle) :
    initState.bestValidAcc = 0
    ∧ (∀ fuel s, 0 ≤ (runFrom cfg o fuel s initState).bestValidAcc)
    ∧ (∀ s st, o.validAcc s = 0 → 0 ≤ st.bestValidAcc →
        (validUpdate o s st).bestValidAcc = st.bestValidAcc
        ∧ (validUpdate o s st).nEvalSinceLastBest = st.nEvalSinceLastBest + 1) := by
  refine ⟨rfl, ?_, ?_⟩
  · intro fuel s
    have h := runFrom_best_mono cfg o fuel s initState
    calc (0 : ℚ) = initState.bestValidAcc := rfl
    _ ≤ _ := h
  · intro s st h0 hnn
    have hnot : ¬ st.bestValidAcc < o.validAcc s := by
      rw [h0]
      exact not_lt.mpr hnn
    exact ⟨by simp [validUpdate, hnot], by simp [validUpdate, hnot]⟩

/-- C10 witness: a first validation evaluation returning exactly 0 keeps the
best at 0 and bumps the counter from 0 to 1. -/
theorem zero_accuracy_is_non_improvement_witness :
    (0 : ℚ) ≤ (runFrom (LoopCfg.mk 3 1 1 0 true false) oracleW 2 0 initState).bestValidAcc
    ∧ (validUpdate oracleW 0 initState).bestValidAcc = initState.bestValidAcc
    ∧ (validUpdate oracleW 0 initState).nEvalSinceLastBest
        = initState.nEvalSinceLastBest + 1 :=
  ⟨(zero_accuracy_is_non_improvement (LoopCfg.mk 3 1 1 0 true false) oracleW).2.1 2 0,
   ((zero_accuracy_is_non_improvement (LoopCfg.mk 3 1 1 0 true false) oracleW).2.2 0 initState
      rfl (by decide)).1,
   ((zero_accuracy_is_non_improvement (LoopCfg.mk 3 1 1 0 true false) oracleW).2.2 0 initState
      rfl (by decide)).2⟩

/-! ## The target-matrix construction (C1, C8) -/

/-- A rectangular `R × C` matrix. -/
def Rect (m : List (List ℝ)) (R C : Nat) : Prop :=
  m.length = R ∧ ∀ r, r < R → (m.getD r []).length = C

theorem setEntry_row_eq (m : List (List ℝ)) (r c : Nat) (v : ℝ) (hr : r < m.length) :
    (setEntry m r c v).getD r [] = (m.getD r []).set c v := by
  rw [setEntry, List.getD_eq_getElem _ _ (by rw [List.length_set]; exact hr)]
  exact List.getElem_set_self _

theorem setEntry_row_ne (m : List (List ℝ)) (r c : Nat) (v : ℝ) (i : Nat) (h : i ≠ r) :
    (setEntry m r c v).getD i [] = m.getD i [] := by
  by_cases hi : i < m.length
  · rw [setEntry, List.getD_eq_getElem _ _ (by rw [List.length_set]; exact hi),
      List.getElem_set_ne (Ne.symm h), List.getD_eq_getElem _ _ hi]
  · rw [setEntry, List.getD_eq_default _ _ (by rw [List.length_set]; omega),
      List.getD_eq_default _ _ (by omega)]

theorem setEntry_length (m : List (List ℝ)) (r c : Nat) (v : ℝ) :
    (setEntry m r c v).length = m.length := by
  rw [setEntry, List.length_set]

theorem rect_setEntry {m : List (List ℝ)} {R C : Nat} (h : Rect m R C) (r c : Nat) (v : ℝ) :
    Rect (setEntry m r c v) R C := by
  obtain ⟨h1, h2⟩ := h
  refine ⟨by rw [setEntry_length]; exact h1, ?_⟩
  intro i hi
  by_cases hir : i = r
  · subst hir
    by_cases hr : i < m.length
    · rw [setEntry_row_eq m i c v hr, List.length_set]
      exact h2 i hi
    · rw [setEntry, List.set_eq_of_length_le (by omega)]
      exact h2 i hi
  · rw [setEntry_row_ne m r c v i hir]
    exact h2 i hi

/-- Entry update: in-range `setEntry` changes exactly the addressed entry. -/
theorem entry_setEntry (m : List (List ℝ)) (r c : Nat) (v : ℝ)
    (hr : r < m.length) (hc : c < (m.getD r []).length) (i j : Nat) :
    entry (setEntry m r c v) i j = if i = r ∧ j = c then v else entry m i j := by
  by_cases hir : i = r
  · subst hir
    rw [entry, setEntry_row_eq m i c v hr, entry]
    by_cases hjc : j = c
    · subst hjc
      rw [if_pos ⟨rfl, rfl⟩, List.getD_eq_getElem _ _ (by rw [List.length_set]; exact hc)]
      exact List.getElem_set_self _
    · rw [if_neg (fun hcon => hjc hcon.2)]
      by_cases hj : j < (m.getD i []).length
      · rw [List.getD_eq_getElem _ _ (by rw [List.length_set]; exact hj),
          List.getElem_set_ne (fun hcon => hjc hcon.symm), List.getD_eq_getElem _ _ hj]
      · rw [List.getD_eq_default _ _ (by rw [List.length_set]; omega),
          List.getD_eq_default _ _ (by omega)]
  · rw [entry, entry, setEntry_row_ne m r c v i hir, if_neg (fun hcon => hir hcon.1)]

/-- Sequentially writing the constant 1 at a list of (row, column) positions. -/
noncomputable def applyWrites (ws : List (Nat × Nat)) (m : List (List ℝ)) : List (List ℝ) :=
  ws.foldl (fun m2 w => setEntry m2 w.1 w.2 1) m

theorem applyWrites_nil (m : List (List ℝ)) : applyWrites [] m = m := rfl

theorem applyWrites_cons (w : Nat × Nat) (ws : List (Nat × Nat)) (m : List (List ℝ)) :
    applyWrites (w :: ws) m = applyWrites ws (setEntry m w.1 w.2 1) := rfl

theorem applyWrites_append (ws1 ws2 : List (Nat × Nat)) (m : List (List ℝ)) :
    applyWrites (ws1 ++ ws2) m = applyWrites ws2 (applyWrites ws1 m) := by
  rw [applyWrites, List.foldl_append]
  rfl

theorem rect_applyWrites {R C : Nat} :
    ∀ (ws : List (Nat × Nat)) (m : List (List ℝ)), Rect m R C → Rect (applyWrites ws m) R C := by
  intro ws
  induction ws with
  | nil => intro m h; exact h
  | cons w t ih =>
    intro m h
    rw [applyWrites_cons]
    exact ih _ (rect_setEntry h w.1 w.2 1)

/-- Since every write stores the same value 1, the result of a batch of
in-range writes at entry `(i, j)` is 1 when `(i, j)` is written and the
original entry otherwise. -/
theorem entry_applyWrites {R C : Nat} :
    ∀ (ws : List (Nat × Nat)) (m : List (List ℝ)), Rect m R C →
      (∀ w ∈ ws, w.1 < R ∧ w.2 < C) →
      ∀ i j, entry (applyWrites ws m) i j = if (i, j) ∈ ws then 1 else entry m i j := by
  intro ws
  induction ws with
  | nil => intro m _ _ i j; simp [applyWrites_nil]
  | cons w t ih =>
    intro m hrect hin i j
    rw [applyWrites_cons]
    have hw := hin w (List.mem_cons_self w t)
    have hr : w.1 < m.length := by rw [hrect.1]; exact hw.1
    have hc : w.2 < (m.getD w.1 []).length := by rw [hrect.2 w.1 hw.1]; exact hw.2
    rw [ih _ (rect_setEntry hrect w.1 w.2 1) (fun x hx => hin x (List.mem_cons_of_mem w hx)) i j,
      entry_setEntry m w.1 w.2 1 hr hc i j]
    by_cases ht : (i, j) ∈ t
    · rw [if_pos ht, if_pos (List.mem_cons_of_mem w ht)]
    · rw [if_neg ht]
      by_cases hwij : i = w.1 ∧ j = w.2
      · rw [if_pos hwij, if_pos (by rw [List.mem_cons]; left; rw [hwij.1, hwij.2])]
      · rw [if_neg hwij, if_neg (by
          rw [List.mem_cons]
          rintro (hcon | hcon)
          · exact hwij ⟨congrArg Prod.fst hcon, congrArg Prod.snd hcon⟩
          · exact ht hcon)]

/-- The positions written for class `c` by the inner loop of lines 78-80,
when the enumeration of the class's query sentences starts at index `j`. -/
def classWrites (c Q j L : Nat) : List (Nat × Nat) :=
  (List.range L).map (fun t => (c * Q + (j + t), c))

/-- The positions written by the whole double loop of lines 78-80, classes
numbered from `n` on. -/
def episodeWrites {α : Type} (Q : Nat) : Nat → List (List α) → List (Nat × Nat)
  | _, [] => []
  | n, g :: rest => classWrites n Q 0 g.length ++ episodeWrites Q (n + 1) rest

theorem innerFold_eq_applyWrites {α : Type} (c Q : Nat) :
    ∀ (g : List α) (j : Nat) (m : List (List ℝ)),
      (g.enumFrom j).foldl (fun m2 q => setEntry m2 (c * Q + q.1) c 1) m
        = applyWrites (classWrites c Q j g.length) m := by
  intro g
  induction g with
  | nil => intro j m; rfl
  | cons a t ih =>
    intro j m
    rw [List.enumFrom_cons, List.foldl_cons, ih (j + 1) _]
    rw [classWrites, classWrites, List.length_cons, List.range_succ_eq_map,
      List.map_cons, List.map_map]
    rw [applyWrites_cons]
    have hfun : ((fun t => (c * Q + (j + t), c)) ∘ Nat.succ)
        = fun t => (c * Q + (j + 1 + t), c) := by
      funext t
      simp only [Function.comp_apply, Nat.succ_eq_add_one]
      have : j + (t + 1) = j + 1 + t := by omega
      rw [this]
    rw [hfun]
    have : j + 0 = j := by omega
    rw [this]

theorem outerFold_eq_applyWrites {α : Type} (Q : Nat) :
    ∀ (xq : List (List α)) (n : Nat) (m : List (List ℝ)),
      (xq.enumFrom n).foldl
          (fun m p => (p.2.enum).foldl
            (fun m2 q => setEntry m2 (p.1 * Q + q.1) p.1 1) m) m
        = applyWrites (episodeWrites Q n xq) m := by
  intro xq
  induction xq with
  | nil => intro n m; rfl
  | cons g rest ih =>
    intro n m
    rw [List.enumFrom_cons, List.foldl_cons]
    rw [show (g.enum = g.enumFrom 0) from rfl, innerFold_eq_applyWrites n Q g 0 m]
    rw [ih (n + 1) _, episodeWrites, applyWrites_append]

/-- The double loop of lines 78-80 is the batch of writes `episodeWrites`. -/
theorem true_labels_eq_applyWrites {α : Type} (xq : List (List α)) (Q : Nat)
    (z : List (List ℝ)) :
    true_labels xq Q z = applyWrites (episodeWrites Q 0 xq) z := by
  rw [true_labels, show (xq.enum = xq.enumFrom 0) from rfl]
  exact outerFold_eq_applyWrites Q xq 0 z

theorem mem_classWrites (c Q L r c' : Nat) :
    (r, c') ∈ classWrites c Q 0 L ↔ (c' = c ∧ ∃ t, t < L ∧ r = c * Q + t) := by
  rw [classWrites]
  constructor
  · intro h
    obtain ⟨t, ht, heq⟩ := List.mem_map.mp h
    rw [List.mem_range] at ht
    have h1 : c * Q + (0 + t) = r := congrArg Prod.fst heq
    have h2 : c = c' := congrArg Prod.snd heq
    exact ⟨h2.symm, t, ht, by omega⟩
  · intro ⟨hc, t, ht, hr⟩
    rw [List.mem_map]
    exact ⟨t, List.mem_range.mpr ht, by rw [hc, hr]; simp⟩

/-- With all query groups of length `Q`, the written positions are exactly:
column `c` in the class range, row in the block of `Q` rows of class `c`. -/
theorem mem_episodeWrites {α : Type} (Q : Nat) :
    ∀ (xq : List (List α)), (∀ g ∈ xq, g.length = Q) →
      ∀ n r c, ((r, c) ∈ episodeWrites Q n xq
        ↔ (n ≤ c ∧ c < n + xq.length ∧ c * Q ≤ r ∧ r < c * Q + Q)) := by
  intro xq
  induction xq with
  | nil =>
    intro _ n r c
    rw [episodeWrites]
    simp only [List.not_mem_nil, false_iff, List.length_nil]
    omega
  | cons g rest ih =>
    intro hQ n r c
    rw [episodeWrites, List.mem_append, mem_classWrites,
      ih (fun x hx => hQ x (List.mem_cons_of_mem g hx)) (n + 1) r c,
      hQ g (List.mem_cons_self g rest)]
    constructor
    · rintro (⟨hc, t, ht, hr⟩ | ⟨h1, h2, h3, h4⟩)
      · subst hc
        refine ⟨le_refl _, ?_, by omega, by omega⟩
        simp only [List.length_cons]
        omega
      · refine ⟨by omega, ?_, h3, h4⟩
        simp only [List.length_cons] at h2 ⊢
        omega
    · rintro ⟨h1, h2, h3, h4⟩
      simp only [List.length_cons] at h2
      by_cases hc : c = n
      · subst hc
        exact Or.inl ⟨rfl, r - c * Q, by omega, by omega⟩
      · exact Or.inr ⟨by omega, by omega, h3, h4⟩

theorem similarities_length (metric : Metric) (zq zs : List (List ℝ)) :
    (similarities metric zq zs).length = zq.length := by
  cases metric <;> simp [similarities, euclidean_dist, cosine_similarity]

/-- On a well-formed episode the query embedding block has `N * Q` rows. -/
theorem z_query_length_of_wf {α : Type} (encode : α → List ℝ) (s : Sample α)
    (N K Q : Nat) (hxs : s.xs.length = N) (hxq : s.xq.length = N) (hN : 0 < N)
    (hK : ∀ g ∈ s.xs, g.length = K) (hQ : ∀ g ∈ s.xq, g.length = Q) :
    (z_query encode s).length = N * Q := by
  rw [z_query, List.length_drop, zAll_length, length_flatten_const s.xs K hK,
    length_flatten_const s.xq Q hQ, hxs, hxq, n_mul_support s N K hxs hN hK]
  omega

/-- On a well-formed episode the aggregated similarity matrix is `N·Q × N`. -/
theorem dists_rect {α : Type} (metric : Metric) (encode : α → List ℝ) (s : Sample α)
    (N K Q : Nat) (hxs : s.xs.length = N) (hxq : s.xq.length = N) (hN : 0 < N)
    (hK : ∀ g ∈ s.xs, g.length = K) (hQ : ∀ g ∈ s.xq, g.length = Q) :
    Rect (distsOf metric encode s) (N * Q) N := by
  have hlen : (distsOf metric encode s).length = N * Q := by
    rw [distsOf, distances_from_query_to_classes, List.length_map, simsOf,
      similarities_length, z_query_length_of_wf encode s N K Q hxs hxq hN hK hQ]
  refine ⟨hlen, ?_⟩
  intro r hr
  have hr2 : r < (simsOf metric encode s).length := by
    rw [simsOf, similarities_length, z_query_length_of_wf encode s N K Q hxs hxq hN hK hQ]
    exact hr
  rw [distsOf, distances_from_query_to_classes, getD_map_of_lt _ _ _ hr2,
    List.length_map, List.length_range, n_classOf, hxs]

theorem rect_zerosLike {m : List (List ℝ)} {R C : Nat} (h : Rect m R C) :
    Rect (zerosLike m) R C := by
  refine ⟨by rw [zerosLike, List.length_map]; exact h.1, ?_⟩
  intro r hr
  have hr2 : r < m.length := by rw [h.1]; exact hr
  rw [zerosLike, getD_map_of_lt _ _ _ hr2, List.length_map,
    ← List.getD_eq_getElem m [] hr2]
  exact h.2 r hr

theorem entry_zerosLike (m : List (List ℝ)) (r c : Nat) :
    entry (zerosLike m) r c = 0 := by
  rw [entry, zerosLike]
  by_cases hr : r < m.length
  · rw [getD_map_of_lt _ _ _ hr]
    by_cases hc : c < (m[r].map (fun _ => (0 : ℝ))).length
    · rw [List.getD_eq_getElem _ _ hc, List.getElem_map]
    · rw [List.getD_eq_default _ _ (by omega)]
  · have hrow : (List.map (fun row => List.map (fun _ => (0 : ℝ)) row) m).getD r [] = [] :=
      List.getD_eq_default _ _ (by rw [List.length_map]; omega)
    rw [hrow, List.getD_nil]

theorem episodeWrites_in_range {α : Type} (Q N : Nat) (xq : List (List α))
    (hxq : xq.length = N) (hQ : ∀ g ∈ xq, g.length = Q) :
    ∀ w ∈ episodeWrites Q 0 xq, w.1 < N * Q ∧ w.2 < N := by
  rintro ⟨r, c⟩ hw
  obtain ⟨_, h2, h3, h4⟩ := (mem_episodeWrites Q xq hQ 0 r c).mp hw
  rw [hxq] at h2
  have hcN : c < N := by omega
  have hmul : (c + 1) * Q ≤ N * Q := Nat.mul_le_mul_right Q (by omega)
  have hsucc : (c + 1) * Q = c * Q + Q := Nat.succ_mul c Q
  exact ⟨by omega, hcN⟩

theorem labels_rect {α : Type} (metric : Metric) (encode : α → List ℝ) (s : Sample α)
    (N K Q : Nat) (hxs : s.xs.length = N) (hxq : s.xq.length = N) (hN : 0 < N)
    (hK : ∀ g ∈ s.xs, g.length = K) (hQ : ∀ g ∈ s.xq, g.length = Q) :
    Rect (labelsOf metric encode s) (N * Q) N := by
  rw [labelsOf, n_query_eq s N Q hxq hN hQ, true_labels_eq_applyWrites]
  exact rect_applyWrites _ _
    (rect_zerosLike (dists_rect metric encode s N K Q hxs hxq hN hK hQ))

/-- In range, the target matrix holds 1 exactly at column `r / Q` of row `r`
and 0 everywhere else. -/
theorem labels_entry_char {α : Type} (metric : Metric) (encode : α → List ℝ)
    (s : Sample α) (N K Q : Nat) (hxs : s.xs.length = N) (hxq : s.xq.length = N)
    (hN : 0 < N) (hQpos : 0 < Q)
    (hK : ∀ g ∈ s.xs, g.length = K) (hQ : ∀ g ∈ s.xq, g.length = Q) :
    ∀ r c, r < N * Q → c < N →
      entry (labelsOf metric encode s) r c = if c = r / Q then 1 else 0 := by
  intro r c hr hc
  have hnq := n_query_eq s N Q hxq hN hQ
  have hrect := rect_zerosLike (dists_rect metric encode s N K Q hxs hxq hN hK hQ)
  rw [labelsOf, hnq, true_labels_eq_applyWrites,
    entry_applyWrites (episodeWrites Q 0 s.xq) _ hrect
      (episodeWrites_in_range Q N s.xq hxq hQ) r c,
    entry_zerosLike]
  have hmemiff := mem_episodeWrites Q s.xq hQ 0 r c
  rw [hxq] at hmemiff
  by_cases hdiv : c = r / Q
  · rw [if_pos hdiv, if_pos]
    rw [hmemiff]
    refine ⟨by omega, by omega, ?_, ?_⟩
    · rw [hdiv]
      exact Nat.div_mul_le_self r Q
    · have hmod := Nat.div_add_mod r Q
      have hmod2 : r / Q * Q + r % Q = r := by
        rw [Nat.mul_comm] at hmod
        exact hmod
      have hmodlt := Nat.mod_lt r hQpos
      rw [hdiv]
      omega
  · rw [if_neg hdiv, if_neg]
    rw [hmemiff]
    rintro ⟨h1, h2, h3, h4⟩
    apply hdiv
    have hle : c ≤ r / Q := (Nat.le_div_iff_mul_le hQpos).mpr h3
    have hlt : r / Q < c + 1 := (Nat.div_lt_iff_lt_mul hQpos).mpr (by
      have hsucc : (c + 1) * Q = c * Q + Q := Nat.succ_mul c Q
      omega)
    omega

/-- C1: on every well-formed episode with `N` classes, `K` support and `Q`
query items per class, the aggregated per-class similarity matrix has shape
`[N·Q, N]`, the target matrix has the same shape, and row `r` of the target
matrix is a valid one-hot row whose single 1 sits at column `r / Q` (which
is a valid column index): every in-range entry is 1 when the column is
`r / Q` and 0 otherwise. -/
theorem loss_builds_one_hot_targets {α : Type} (metric : Metric)
    (encode : α → List ℝ) (s : Sample α) (N K Q : Nat)
    (hxs : s.xs.length = N) (hxq : s.xq.length = N) (hN : 0 < N) (hQpos : 0 < Q)
    (hK : ∀ g ∈ s.xs, g.length = K) (hQ : ∀ g ∈ s.xq, g.length = Q) :
    (distsOf metric encode s).length = N * Q
    ∧ (∀ row ∈ distsOf metric encode s, row.length = N)
    ∧ (labelsOf metric encode s).length = N * Q
    ∧ (∀ r, r < N * Q → ((labelsOf metric encode s).getD r []).length = N)
    ∧ (∀ r, r < N * Q → r / Q < N)
    ∧ (∀ r c, r < N * Q → c < N →
        entry (labelsOf metric encode s) r c = if c = r / Q then (1 : ℝ) else 0) := by
  have hrect := dists_rect metric encode s N K Q hxs hxq hN hK hQ
  have hlrect := labels_rect metric encode s N K Q hxs hxq hN hK hQ
  refine ⟨hrect.1, ?_, hlrect.1, hlrect.2, ?_, labels_entry_char metric encode s N K Q
    hxs hxq hN hQpos hK hQ⟩
  · intro row hrow
    rw [distsOf, distances_from_query_to_classes] at hrow
    obtain ⟨x, _, hx⟩ := List.mem_map.mp hrow
    rw [← hx, List.length_map, List.length_range, n_classOf, hxs]
  · intro r hr
    exact (Nat.div_lt_iff_lt_mul hQpos).mpr hr

/-- C1 witness: a concrete 2-way 1-shot episode with one query per class. -/
theorem loss_builds_one_hot_targets_witness :
    (distsOf Metric.euclidean (fun _ : Nat => [(0 : ℝ)])
        (Sample.mk [[0], [1]] [[2], [3]])).length = 2 * 1
    ∧ (labelsOf Metric.euclidean (fun _ : Nat => [(0 : ℝ)])
        (Sample.mk [[0], [1]] [[2], [3]])).length = 2 * 1
    ∧ entry (labelsOf Metric.euclidean (fun _ : Nat => [(0 : ℝ)])
        (Sample.mk [[0], [1]] [[2], [3]])) 0 0 = (if 0 = 0 / 1 then (1 : ℝ) else 0)
    ∧ entry (labelsOf Metric.euclidean (fun _ : Nat => [(0 : ℝ)])
        (Sample.mk [[0], [1]] [[2], [3]])) 1 0 = (if 0 = 1 / 1 then (1 : ℝ) else 0) :=
  let h := loss_builds_one_hot_targets Metric.euclidean (fun _ : Nat => [(0 : ℝ)])
    (Sample.mk [[0], [1]] [[2], [3]]) 2 1 1 (by decide) (by decide) (by decide) (by decide)
    (by decide) (by decide)
  ⟨h.1, h.2.2.1, h.2.2.2.2.2 0 0 (by decide) (by decide),
    h.2.2.2.2.2 1 0 (by decide) (by decide)⟩

theorem argmaxRow_singleton (a : ℝ) : argmaxRow [a] = 0 := rfl

theorem rect_row_length {m : List (List ℝ)} {R C : Nat} (h : Rect m R C)
    {row : List ℝ} (hrow : row ∈ m) : row.length = C := by
  obtain ⟨i, hi, hieq⟩ := List.mem_iff_getElem.mp hrow
  rw [← hieq, ← List.getD_eq_getElem m [] hi]
  exact h.2 i (by rw [← h.1]; exact hi)

/-- C8: on every well-formed episode the accuracy reported by
`MatchingNet.loss` lies in `[0, 1]`, and with a single class (`N = 1`) it is
exactly 1: both the one-hot target row and the aggregated similarity row
then have a single column, so both argmaxes are 0 for every query item. -/
theorem loss_accuracy_bounds {α : Type} (metric : Metric) (encode : α → List ℝ)
    (s : Sample α) (N K Q : Nat)
    (hxs : s.xs.length = N) (hxq : s.xq.length = N) (hN : 0 < N) (hQpos : 0 < Q)
    (hK : ∀ g ∈ s.xs, g.length = K) (hQ : ∀ g ∈ s.xq, g.length = Q) :
    0 ≤ accOf metric encode s ∧ accOf metric encode s ≤ 1
    ∧ (N = 1 → accOf metric encode s = 1) := by
  have hlab := labels_rect metric encode s N K Q hxs hxq hN hK hQ
  have hdist := dists_rect metric encode s N K Q hxs hxq hN hK hQ
  have hziplen : ((labelsOf metric encode s).zip (distsOf metric encode s)).length
      = N * Q := by
    rw [List.length_zip, hlab.1, hdist.1, min_self]
  have hpos : 0 < N * Q := Nat.mul_pos hN hQpos
  have hposQ : (0 : ℚ)
      < (((labelsOf metric encode s).zip (distsOf metric encode s)).length : ℚ) := by
    rw [hziplen]
    exact_mod_cast hpos
  refine ⟨?_, ?_, ?_⟩
  · rw [accOf, accVal]
    exact div_nonneg (Nat.cast_nonneg _) (Nat.cast_nonneg _)
  · rw [accOf, accVal, div_le_one hposQ]
    exact_mod_cast List.countP_le_length _
  · intro hN1
    subst hN1
    rw [accOf, accVal]
    have hall : ∀ p ∈ (labelsOf metric encode s).zip (distsOf metric encode s),
        (argmaxRow p.1 == argmaxRow p.2) = true := by
      rintro ⟨a, b⟩ hp
      obtain ⟨ha, hb⟩ := List.of_mem_zip hp
      obtain ⟨x, hx⟩ := List.length_eq_one.mp (rect_row_length hlab ha)
      obtain ⟨y, hy⟩ := List.length_eq_one.mp (rect_row_length hdist hb)
      rw [hx, hy]
      rfl
    rw [List.countP_eq_length.mpr hall]
    exact div_self (ne_of_gt hposQ)

/-- C8 witness: a concrete single-class episode (`N = 1`, `K = 2`, `Q = 1`)
has accuracy exactly 1, and within bounds. -/
theorem loss_accuracy_bounds_witness :
    0 ≤ accOf Metric.cosine (fun n : Nat => [(n : ℝ)]) (Sample.mk [[5, 6]] [[7]])
    ∧ accOf Metric.cosine (fun n : Nat => [(n : ℝ)]) (Sample.mk [[5, 6]] [[7]]) ≤ 1
    ∧ accOf Metric.cosine (fun n : Nat => [(n : ℝ)]) (Sample.mk [[5, 6]] [[7]]) = 1 :=
  let h := loss_accuracy_bounds Metric.cosine (fun n : Nat => [(n : ℝ)])
    (Sample.mk [[5, 6]] [[7]]) 1 2 1 (by decide) (by decide) (by decide) (by decide)
    (by decide) (by decide)
  ⟨h.1, h.2.1, h.2.2 rfl⟩

end MatchingNetSpec
